import Mathlib

set_option maxRecDepth 8000

/-!
Verification of the glzip compressed-adjacency store.

This file shallowly embeds the byte-run-length neighbour codec
(src/encoder.rs, src/decoder.rs), the CSR container and its union
operators (src/csr/mod.rs), the edge-list builders (src/csr/par.rs and
src/csr.rs), and the GraphSAGE re-indexing stage
(src/graph_sage_sampler.rs), and proves the testable properties stated
in the specification against these embeddings.

Machine integers are modelled as Nat: all byte values produced by the
encoder lie in [0, 256) by construction, and vertex ids are constrained
to [0, 2^32) by explicit hypotheses where the source relies on u32.
Rust panics (slice OOB, the unreachable missing-continuation branch) are
modelled with Option, or with default values on branches that are
unreachable for the well-formed inputs the theorems quantify over; each
such spot carries a comment. Recursive functions take an explicit fuel
argument (always called with a sufficient bound) so that every
definition evaluates by kernel reduction.
-/

/-! ## Codec: encoder (src/encoder.rs) -/

/-- Continuation bytes of the gap head, 7-bit little-endian chunks with
the top bit set on every byte that is followed by another one.  Models
the closure loop in encoder.rs first_edge after the first byte has been
emitted: the state e is the remaining diff (already shifted right by 6,
then by 7 per step); the loop stops when e = 0.  Fuel-indexed; fuel e is
sufficient since e / 128 < e for 0 < e. -/
def contBytesF : Nat → Nat → List Nat
  | 0, _ => []
  | f+1, e =>
    if e = 0 then []
    else (e % 128 + if 0 < e / 128 then 128 else 0) :: contBytesF f (e / 128)

/-- Continuation bytes of the gap head for shifted diff e. -/
def contBytes (e : Nat) : List Nat := contBytesF e e

/-- Gap head for the first neighbour: low 6 bits of the absolute diff,
bit 6 is the sign flag (target < source), bit 7 the continuation flag
(diff has bits above the low 6).  Models encoder.rs first_edge. -/
def firstEdgeBytes (source target : Nat) : List Nat :=
  let diff := if target < source then source - target else target - source
  let b0 := diff % 64 + (if target < source then 64 else 0) +
    (if 0 < diff / 64 then 128 else 0)
  b0 :: contBytes (diff / 64)

/-- Width class of a delta, as the header low-bits code (stored width
minus one).  Models the range dispatch in encoder.rs next_group with
ONE_BYTE = 256, TWO_BYTES = 65536, THREE_BYTES = 16777216. -/
def width (d : Nat) : Nat :=
  if d < 256 then 0 else if d < 65536 then 1 else if d < 16777216 then 2 else 3

/-- Longest prefix of ds whose elements are in width class w, capped by
the fuel (the source caps a run at 64 via its for-loop); returns the run
and the remainder.  Models the next_if loop of encoder.rs next_group. -/
def takeRunF : Nat → Nat → List Nat → List Nat × List Nat
  | 0, _, ds => ([], ds)
  | _+1, _, [] => ([], [])
  | f+1, w, d :: ds =>
    if width d = w then
      let p := takeRunF f w ds
      (d :: p.1, p.2)
    else ([], d :: ds)

/-- Big-endian payload bytes of one delta at width code w (w + 1 bytes).
Models the per-branch byte pushes of encoder.rs next_group. -/
def beBytes (w d : Nat) : List Nat :=
  match w with
  | 0 => [d % 256]
  | 1 => [d / 256 % 256, d % 256]
  | 2 => [d / 65536 % 256, d / 256 % 256, d % 256]
  | _ => [d / 16777216 % 256, d / 65536 % 256, d / 256 % 256, d % 256]

/-- All run groups for a delta sequence: per group one header byte
(width code in bits 0-1, run length minus one in bits 2-7) followed by
the big-endian payload.  Models the while-loop over next_group in
encoder.rs encode.  Fuel-indexed; the length of the delta list is a
sufficient fuel since every group consumes at least one delta. -/
def encodeGroupsF : Nat → List Nat → List Nat
  | 0, _ => []
  | f+1, ds =>
    match ds with
    | [] => []
    | d :: _ =>
      let w := width d
      let p := takeRunF 64 w ds
      (w + 4 * (p.1.length - 1)) :: (p.1.map (beBytes w)).flatten ++
        encodeGroupsF f p.2

/-- Run groups of a delta sequence. -/
def encodeGroups (ds : List Nat) : List Nat := encodeGroupsF ds.length ds

/-- Consecutive differences of a list.  Models the Diffs iterator of
encoder.rs, which on x :: y :: rest yields y - x and continues with
y :: rest (the source asserts y >= x; on the sorted inputs the encoder
receives, Nat subtraction agrees with u32 subtraction). -/
def diffs : List Nat → List Nat
  | x :: y :: rest => (y - x) :: diffs (y :: rest)
  | _ => []

/-- The neighbour-list encoder: gap head for the first neighbour, then
run groups over the consecutive deltas.  Models encoder.rs encode;
empty input emits no bytes. -/
def encode (s : Nat) (L : List Nat) : List Nat :=
  match L with
  | [] => []
  | v :: _ => firstEdgeBytes s v ++ encodeGroups (diffs L)

/-! ## Codec: decoder (src/decoder.rs) -/

/-- Continuation-byte reader of decoder.rs first_edge: accumulates 7-bit
chunks shifted by 6, 13, 20, ... until a byte without the top bit.
Running out of bytes is the unreachable branch of the source (a panic),
modelled as none; fuel at least the byte-list length makes the fuel
pattern itself unreachable. -/
def readContF : Nat → Nat → Nat → List Nat → Option (Nat × List Nat)
  | 0, _, _, _ => none
  | _+1, _, _, [] => none
  | f+1, shift, acc, b :: rest =>
    let acc2 := acc + b % 128 * 2 ^ shift
    if 128 ≤ b then readContF f (shift + 7) acc2 rest else some (acc2, rest)

/-- Gap-head reader given the first byte b and the remaining bytes.
Models decoder.rs first_edge on a nonempty byte stream: bit tests on b
are expressed with division and remainder, which agree with the bit
masks of the source for the byte values (below 256) the encoder emits.
Returns the decoded first neighbour and the unconsumed bytes. -/
def readHead (source b : Nat) (rest : List Nat) : Option (Nat × List Nat) :=
  if 128 ≤ b then
    match readContF rest.length 6 (b % 64) rest with
    | some (diff, rest') =>
      some (if (b / 64) % 2 = 1 then source - diff else source + diff, rest')
    | none => none
  else
    some (if (b / 64) % 2 = 1 then source - b % 64 else source + b % 64, rest)

/-- Big-endian value of one payload chunk. -/
def beVal (c : List Nat) : Nat := c.foldl (fun a b => a * 256 + b) 0

/-- Exact chunks of size w, dropping a ragged tail.  Models the
chunks_exact iteration of decoder.rs; fuel at least the chunk count is
sufficient. -/
def chunksExactF : Nat → Nat → List Nat → List (List Nat)
  | 0, _, _ => []
  | f+1, w, l => if w = 0 ∨ l.length < w then [] else l.take w :: chunksExactF f w (l.drop w)

/-- Decode one group payload: running sums of the chunk values starting
from the previous edge; returns the decoded edges and the new previous
edge.  Models the per-width inner loops of decoder.rs next_groups_map
(on canonical input the u32 additions of the source do not overflow, so
Nat addition agrees). -/
def decodeRun (prev : Nat) (chunks : List (List Nat)) : List Nat × Nat :=
  chunks.foldl (fun (acc : List Nat × Nat) c => (acc.1 ++ [acc.2 + beVal c], acc.2 + beVal c))
    ([], prev)

/-- Group decoder: reads a header byte, splits off width * run payload
bytes (too few bytes is the split_at panic of the source, modelled as
none), decodes the run, recurses on the rest.  Models decoder.rs
next_groups_map; fuel at least the byte count is sufficient. -/
def decodeGroupsF : Nat → Nat → List Nat → Option (List Nat)
  | _, _, [] => some []
  | 0, _, _ :: _ => none
  | f+1, prev, header :: rest =>
    let w := header % 4
    let run := header / 4 + 1
    let need := (w + 1) * run
    if need ≤ rest.length then
      let p := decodeRun prev (chunksExactF run (w + 1) (rest.take need))
      (decodeGroupsF f p.2 (rest.drop need)).map (p.1 ++ ·)
    else none

/-- The neighbour-list decoder, as the list of edges produced by
decoder.rs decode_map: empty bytes yield the empty list, otherwise the
gap head is decoded and then the run groups.  none models the panics of
the source on malformed bytes. -/
def decode (source : Nat) (bytes : List Nat) : Option (List Nat) :=
  match bytes with
  | [] => some []
  | b :: rest =>
    match readHead source b rest with
    | none => none
    | some (e, rest') => (decodeGroupsF rest'.length e rest').map (e :: ·)

/-- Group counter: walks headers only, skipping width * run payload
bytes and accumulating the run lengths.  Models the loop of decoder.rs
count after the first edge. -/
def countGroupsF : Nat → List Nat → Option Nat
  | _, [] => some 0
  | 0, _ :: _ => none
  | f+1, header :: rest =>
    let run := header / 4 + 1
    let need := (header % 4 + 1) * run
    if need ≤ rest.length then (countGroupsF f (rest.drop need)).map (run + ·) else none

/-- The neighbour-list counter of decoder.rs count: 0 on empty bytes,
otherwise one for the gap head plus the run lengths of all groups. -/
def count (source : Nat) (bytes : List Nat) : Option Nat :=
  match bytes with
  | [] => some 0
  | b :: rest =>
    match readHead source b rest with
    | none => none
    | some (_, rest') => (countGroupsF rest'.length rest').map (1 + ·)

/-- Running sums of a delta list starting after prev: the edges a
decoded group sequence reconstructs. -/
def sumsFrom (prev : Nat) : List Nat → List Nat
  | [] => []
  | d :: ds => (prev + d) :: sumsFrom (prev + d) ds

/-! ## Codec lemmas: gap head round trip -/

theorem contBytesF_zero (f : Nat) : contBytesF f 0 = [] := by
  cases f <;> simp [contBytesF]

theorem readContF_contBytesF (e : Nat) :
    ∀ fc f shift acc tail, 0 < e → e ≤ fc →
      (contBytesF fc e).length + tail.length ≤ f →
      readContF f shift acc (contBytesF fc e ++ tail) =
        some (acc + e * 2 ^ shift, tail) := by
  induction e using Nat.strong_induction_on with
  | _ e ih =>
    intro fc f shift acc tail he hfc hf
    have hne : ¬ e = 0 := by omega
    cases fc with
    | zero => omega
    | succ fc =>
      rw [contBytesF, if_neg hne] at hf ⊢
      simp only [List.length_cons] at hf
      cases f with
      | zero => omega
      | succ f =>
        rw [List.cons_append, readContF]
        by_cases hq : 0 < e / 128
        · have hb : 128 ≤ e % 128 + if 0 < e / 128 then 128 else 0 := by
            rw [if_pos hq]; omega
          rw [if_pos hb, if_pos hq]
          have hmod : (e % 128 + 128) % 128 = e % 128 := by omega
          have hrec := ih (e / 128) (Nat.div_lt_self he (by norm_num)) fc f (shift + 7)
            (acc + (e % 128 + 128) % 128 * 2 ^ shift) tail hq (by omega) (by omega)
          rw [hrec, hmod]
          have hsplit : e % 128 + 128 * (e / 128) = e := Nat.mod_add_div e 128
          have hp : (2:Nat) ^ (shift + 7) = 2 ^ shift * 128 := by
            rw [pow_add]; norm_num
          have : acc + e % 128 * 2 ^ shift + e / 128 * 2 ^ (shift + 7)
              = acc + e * 2 ^ shift := by
            rw [hp]
            calc acc + e % 128 * 2 ^ shift + e / 128 * (2 ^ shift * 128)
                = acc + (e % 128 + 128 * (e / 128)) * 2 ^ shift := by ring
              _ = acc + e * 2 ^ shift := by rw [hsplit]
          rw [this]
        · have hz : e / 128 = 0 := by omega
          have helt : e < 128 := by omega
          have hb : ¬ (128 ≤ e % 128 + if 0 < e / 128 then 128 else 0) := by
            rw [if_neg hq]; omega
          rw [if_neg hb, if_neg hq, hz, contBytesF_zero, List.nil_append]
          have h1 : (e % 128 + 0) % 128 = e := by omega
          rw [h1]

theorem readContF_contBytes (e f shift acc : Nat) (tail : List Nat)
    (he : 0 < e) (hf : (contBytes e).length + tail.length ≤ f) :
    readContF f shift acc (contBytes e ++ tail) = some (acc + e * 2 ^ shift, tail) :=
  readContF_contBytesF e e f shift acc tail he le_rfl hf

theorem readHead_firstEdgeBytes (s v : Nat) (tail : List Nat) :
    ∃ b0 cb, firstEdgeBytes s v = b0 :: cb ∧
      readHead s b0 (cb ++ tail) = some (v, tail) := by
  unfold firstEdgeBytes
  set diff := if v < s then s - v else v - s with hdiff
  set b0 := diff % 64 + (if v < s then 64 else 0) +
    (if 0 < diff / 64 then 128 else 0) with hb0
  refine ⟨b0, contBytes (diff / 64), rfl, ?_⟩
  have hb0m : b0 % 64 = diff % 64 := by rw [hb0]; split_ifs <;> omega
  have hsign : b0 / 64 % 2 = if v < s then 1 else 0 := by
    rw [hb0]; split_ifs <;> omega
  have h128 : 128 ≤ b0 ↔ 0 < diff / 64 := by
    rw [hb0]; split_ifs <;> omega
  unfold readHead
  by_cases hq : 0 < diff / 64
  · rw [if_pos (h128.mpr hq)]
    rw [readContF_contBytes (diff / 64) _ 6 (b0 % 64) tail hq (by simp)]
    have hval : b0 % 64 + diff / 64 * 2 ^ 6 = diff := by
      rw [hb0m]
      have h64 : (2:Nat) ^ 6 = 64 := by norm_num
      rw [h64]
      exact Nat.mod_add_div' diff 64
    rw [hval, hsign, hdiff]
    by_cases hvs : v < s
    · simp [hvs]; omega
    · simp [hvs]; omega
  · have hz : diff / 64 = 0 := by omega
    have hlt : diff < 64 := by omega
    rw [if_neg (by rw [h128]; omega)]
    have hcb : contBytes (diff / 64) = [] := by rw [hz]; rfl
    rw [hcb, List.nil_append, hb0m, Nat.mod_eq_of_lt hlt, hsign, hdiff]
    by_cases hvs : v < s
    · simp [hvs]; omega
    · simp [hvs]; omega

/-! ## Codec lemmas: run groups -/

theorem decodeGroupsF_nil (f prev : Nat) : decodeGroupsF f prev [] = some [] := by
  cases f <;> simp [decodeGroupsF]

theorem countGroupsF_nil (f : Nat) : countGroupsF f [] = some 0 := by
  cases f <;> simp [countGroupsF]

theorem takeRunF_append (w : Nat) :
    ∀ f ds, (takeRunF f w ds).1 ++ (takeRunF f w ds).2 = ds := by
  intro f
  induction f with
  | zero => intro ds; rfl
  | succ f ih =>
    intro ds
    cases ds with
    | nil => rfl
    | cons d t =>
      rw [takeRunF]
      by_cases h : width d = w
      · simp only [if_pos h, List.cons_append, ih t]
      · simp only [if_neg h, List.nil_append]

theorem takeRunF_length_le (w : Nat) :
    ∀ f ds, (takeRunF f w ds).1.length ≤ f := by
  intro f
  induction f with
  | zero => intro ds; simp [takeRunF]
  | succ f ih =>
    intro ds
    cases ds with
    | nil => simp [takeRunF]
    | cons d t =>
      rw [takeRunF]
      by_cases h : width d = w
      · simp only [if_pos h, List.length_cons]
        exact Nat.succ_le_succ (ih t)
      · simp [if_neg h]

theorem takeRunF_mem_width (w : Nat) :
    ∀ f ds d, d ∈ (takeRunF f w ds).1 → width d = w := by
  intro f
  induction f with
  | zero => intro ds d h; simp [takeRunF] at h
  | succ f ih =>
    intro ds d h
    cases ds with
    | nil => simp [takeRunF] at h
    | cons e t =>
      rw [takeRunF] at h
      by_cases he : width e = w
      · simp only [if_pos he, List.mem_cons] at h
        rcases h with rfl | h
        · exact he
        · exact ih t d h
      · simp [if_neg he] at h

theorem takeRunF_cons_same (w f : Nat) (d : Nat) (t : List Nat) (h : width d = w) :
    (takeRunF (f + 1) w (d :: t)).1 = d :: (takeRunF f w t).1 := by
  rw [takeRunF, if_pos h]

theorem encodeGroupsF_congr :
    ∀ n ds f g, ds.length ≤ n → ds.length ≤ f → ds.length ≤ g →
      encodeGroupsF f ds = encodeGroupsF g ds := by
  intro n
  induction n with
  | zero =>
    intro ds f g hn _ _
    have : ds = [] := List.eq_nil_of_length_eq_zero (by omega)
    subst this
    cases f <;> cases g <;> rfl
  | succ n ih =>
    intro ds f g hn hf hg
    cases ds with
    | nil => cases f <;> cases g <;> rfl
    | cons d t =>
      simp only [List.length_cons] at hn hf hg
      cases f with
      | zero => omega
      | succ f =>
        cases g with
        | zero => omega
        | succ g =>
          rw [encodeGroupsF, encodeGroupsF]
          have hrun : (takeRunF 64 (width d) (d :: t)).1 =
              d :: (takeRunF 63 (width d) t).1 := takeRunF_cons_same _ 63 d t rfl
          have happ := takeRunF_append (width d) 64 (d :: t)
          have hlen2 : (takeRunF 64 (width d) (d :: t)).2.length ≤ t.length := by
            have := congrArg List.length happ
            simp only [List.length_append, List.length_cons] at this
            rw [hrun] at this
            simp only [List.length_cons] at this
            omega
          rw [ih (takeRunF 64 (width d) (d :: t)).2 f g (by omega) (by omega) (by omega)]

theorem encodeGroups_cons (d : Nat) (t : List Nat) :
    encodeGroups (d :: t) =
      (width d + 4 * ((takeRunF 64 (width d) (d :: t)).1.length - 1)) ::
        ((takeRunF 64 (width d) (d :: t)).1.map (beBytes (width d))).flatten ++
        encodeGroups (takeRunF 64 (width d) (d :: t)).2 := by
  have hrun : (takeRunF 64 (width d) (d :: t)).1 =
      d :: (takeRunF 63 (width d) t).1 := takeRunF_cons_same _ 63 d t rfl
  have happ := takeRunF_append (width d) 64 (d :: t)
  have hlen2 : (takeRunF 64 (width d) (d :: t)).2.length ≤ t.length := by
    have := congrArg List.length happ
    simp only [List.length_append, List.length_cons] at this
    rw [hrun] at this
    simp only [List.length_cons] at this
    omega
  show encodeGroupsF (d :: t).length (d :: t) = _
  simp only [List.length_cons]
  rw [encodeGroupsF]
  rw [encodeGroupsF_congr t.length (takeRunF 64 (width d) (d :: t)).2 t.length
    (takeRunF 64 (width d) (d :: t)).2.length hlen2 hlen2 le_rfl]
  rfl

theorem width_le (d : Nat) : width d ≤ 3 := by
  unfold width
  split_ifs <;> omega

theorem width_bound (d : Nat) (h32 : d < 4294967296) : d < 256 ^ (width d + 1) := by
  unfold width
  split_ifs with h1 h2 h3 <;> norm_num <;> omega

theorem beBytes_length (w d : Nat) (hw : w ≤ 3) : (beBytes w d).length = w + 1 := by
  interval_cases w <;> rfl

theorem beVal_beBytes (w d : Nat) (hw : w ≤ 3) (hd : d < 256 ^ (w + 1)) :
    beVal (beBytes w d) = d := by
  interval_cases w <;> simp [beVal, beBytes] <;> norm_num at hd <;> omega

theorem chunksExactF_flatten (k : Nat) (hk : 0 < k) :
    ∀ (cs : List (List Nat)) f, (∀ c ∈ cs, c.length = k) → cs.length ≤ f →
      chunksExactF f k cs.flatten = cs := by
  intro cs
  induction cs with
  | nil =>
    intro f _ _
    cases f with
    | zero => rfl
    | succ f =>
      rw [List.flatten_nil, chunksExactF]
      simp [hk]
  | cons c cs ih =>
    intro f hmem hf
    simp only [List.length_cons] at hf
    cases f with
    | zero => omega
    | succ f =>
      rw [List.flatten_cons, chunksExactF]
      have hc : c.length = k := hmem c (by simp)
      have hge : ¬ ((c ++ cs.flatten).length < k) := by
        simp only [List.length_append]
        omega
      rw [if_neg (by push_neg; exact ⟨by omega, by omega⟩)]
      rw [List.take_left' hc, List.drop_left' hc]
      rw [ih f (fun x hx => hmem x (by simp [hx])) (by omega)]

theorem decodeRun_acc (cs : List (List Nat)) :
    ∀ (a : List Nat) (p : Nat),
      cs.foldl (fun (acc : List Nat × Nat) c => (acc.1 ++ [acc.2 + beVal c], acc.2 + beVal c))
        (a, p) = (a ++ (decodeRun p cs).1, (decodeRun p cs).2) := by
  induction cs with
  | nil => intro a p; simp [decodeRun]
  | cons c cs ih =>
    intro a p
    show List.foldl _ (a ++ [p + beVal c], p + beVal c) cs = _
    rw [ih (a ++ [p + beVal c]) (p + beVal c)]
    unfold decodeRun
    show _ = (a ++ (List.foldl _ ([] ++ [p + beVal c], p + beVal c) cs).1,
      (List.foldl _ ([] ++ [p + beVal c], p + beVal c) cs).2)
    rw [ih ([] ++ [p + beVal c]) (p + beVal c)]
    simp
    exact ⟨rfl, rfl⟩

theorem decodeRun_cons (p : Nat) (c : List Nat) (cs : List (List Nat)) :
    decodeRun p (c :: cs) =
      ((p + beVal c) :: (decodeRun (p + beVal c) cs).1, (decodeRun (p + beVal c) cs).2) := by
  unfold decodeRun
  show List.foldl _ ([] ++ [p + beVal c], p + beVal c) cs = _
  rw [decodeRun_acc cs ([] ++ [p + beVal c]) (p + beVal c)]
  simp
  exact ⟨rfl, rfl⟩

theorem decodeRun_map_beBytes (w : Nat) (hw : w ≤ 3) :
    ∀ (g : List Nat) (prev : Nat), (∀ d ∈ g, d < 256 ^ (w + 1)) →
      decodeRun prev (g.map (beBytes w)) = (sumsFrom prev g, prev + g.sum) := by
  intro g
  induction g with
  | nil => intro prev _; simp [decodeRun, sumsFrom]
  | cons d t ih =>
    intro prev hb
    rw [List.map_cons, decodeRun_cons, beVal_beBytes w d hw (hb d (by simp))]
    rw [ih (prev + d) (fun x hx => hb x (by simp [hx]))]
    simp only [sumsFrom, List.sum_cons]
    rw [Nat.add_assoc]

theorem sumsFrom_append (a : List Nat) :
    ∀ (p : Nat) (b : List Nat),
      sumsFrom p (a ++ b) = sumsFrom p a ++ sumsFrom (p + a.sum) b := by
  induction a with
  | nil => intro p b; simp [sumsFrom]
  | cons d t ih =>
    intro p b
    show sumsFrom p (d :: (t ++ b)) =
      ((p + d) :: sumsFrom (p + d) t) ++ sumsFrom (p + (d + t.sum)) b
    rw [show p + (d + t.sum) = p + d + t.sum from (Nat.add_assoc p d t.sum).symm]
    show (p + d) :: sumsFrom (p + d) (t ++ b) =
      (p + d) :: (sumsFrom (p + d) t ++ sumsFrom (p + d + t.sum) b)
    rw [ih (p + d) b]

theorem decodeGroupsF_encodeGroups :
    ∀ n ds prev f, ds.length ≤ n → (∀ d ∈ ds, d < 4294967296) →
      (encodeGroups ds).length ≤ f →
      decodeGroupsF f prev (encodeGroups ds) = some (sumsFrom prev ds) := by
  intro n
  induction n with
  | zero =>
    intro ds prev f hn _ _
    have : ds = [] := List.eq_nil_of_length_eq_zero (by omega)
    subst this
    rw [show encodeGroups [] = [] from rfl, decodeGroupsF_nil]
    rfl
  | succ n ih =>
    intro ds prev f hn hb hf
    cases ds with
    | nil =>
      rw [show encodeGroups [] = [] from rfl, decodeGroupsF_nil]
      rfl
    | cons d t =>
      rw [encodeGroups_cons] at hf ⊢
      set w := width d with hwdef
      set g := (takeRunF 64 w (d :: t)).1 with hgdef
      set r := (takeRunF 64 w (d :: t)).2 with hrdef
      have hw3 : w ≤ 3 := width_le d
      have hgcons : g = d :: (takeRunF 63 w t).1 := takeRunF_cons_same w 63 d t rfl
      have hgpos : 1 ≤ g.length := by rw [hgcons]; simp
      have hg64 : g.length ≤ 64 := takeRunF_length_le w 64 (d :: t)
      have happ : g ++ r = d :: t := takeRunF_append w 64 (d :: t)
      have hlensum : g.length + r.length = t.length + 1 := by
        have := congrArg List.length happ
        simpa [List.length_append] using this
      have hmemg : ∀ x ∈ g, x ∈ d :: t := fun x hx => by
        rw [← happ]; exact List.mem_append_left _ hx
      have hmemr : ∀ x ∈ r, x ∈ d :: t := fun x hx => by
        rw [← happ]; exact List.mem_append_right _ hx
      have hplen : ((g.map (beBytes w)).flatten).length = (w + 1) * g.length := by
        rw [List.length_flatten, List.map_map]
        have : (List.length ∘ beBytes w) = fun _ => w + 1 := by
          funext x
          exact beBytes_length w x hw3
        rw [this, List.map_const', List.sum_replicate, smul_eq_mul, Nat.mul_comm]
      simp only [List.length_cons, List.length_append] at hf
      cases f with
      | zero => omega
      | succ f =>
        rw [List.cons_append, decodeGroupsF]
        have hmod : (w + 4 * (g.length - 1)) % 4 = w := by omega
        have hdiv : (w + 4 * (g.length - 1)) / 4 + 1 = g.length := by omega
        rw [hmod, hdiv]
        have hneed : (w + 1) * g.length ≤
            ((g.map (beBytes w)).flatten ++ encodeGroups r).length := by
          rw [List.length_append, hplen]
          omega
        rw [if_pos hneed]
        rw [show (w + 1) * g.length = ((g.map (beBytes w)).flatten).length from hplen.symm]
        rw [List.take_left, List.drop_left]
        have hchunks : chunksExactF g.length (w + 1) ((g.map (beBytes w)).flatten) =
            g.map (beBytes w) := by
          have := chunksExactF_flatten (w + 1) (by omega) (g.map (beBytes w)) g.length
            (by
              intro c hc
              obtain ⟨x, _, rfl⟩ := List.mem_map.mp hc
              exact beBytes_length w x hw3)
            (by simp)
          simpa using this
        rw [hchunks]
        rw [decodeRun_map_beBytes w hw3 g prev
          (fun x hx => by
            have hxw : width x = w := takeRunF_mem_width w 64 (d :: t) x hx
            have := width_bound x (hb x (hmemg x hx))
            rwa [hxw] at this)]
        show Option.map (fun x => sumsFrom prev g ++ x)
          (decodeGroupsF f (prev + g.sum) (encodeGroups r)) = some (sumsFrom prev (d :: t))
        simp only [List.length_cons] at hn
        rw [ih r (prev + g.sum) f (by omega) (fun x hx => hb x (hmemr x hx)) (by omega)]
        show some (sumsFrom prev g ++ sumsFrom (prev + g.sum) r) = some (sumsFrom prev (d :: t))
        rw [← sumsFrom_append g prev r, happ]

theorem countGroupsF_encodeGroups :
    ∀ n ds f, ds.length ≤ n → (encodeGroups ds).length ≤ f →
      countGroupsF f (encodeGroups ds) = some ds.length := by
  intro n
  induction n with
  | zero =>
    intro ds f hn _
    have : ds = [] := List.eq_nil_of_length_eq_zero (by omega)
    subst this
    rw [show encodeGroups [] = [] from rfl, countGroupsF_nil]
    rfl
  | succ n ih =>
    intro ds f hn hf
    cases ds with
    | nil =>
      rw [show encodeGroups [] = [] from rfl, countGroupsF_nil]
      rfl
    | cons d t =>
      rw [encodeGroups_cons] at hf ⊢
      set w := width d with hwdef
      set g := (takeRunF 64 w (d :: t)).1 with hgdef
      set r := (takeRunF 64 w (d :: t)).2 with hrdef
      have hw3 : w ≤ 3 := width_le d
      have hgcons : g = d :: (takeRunF 63 w t).1 := takeRunF_cons_same w 63 d t rfl
      have hgpos : 1 ≤ g.length := by rw [hgcons]; simp
      have hg64 : g.length ≤ 64 := takeRunF_length_le w 64 (d :: t)
      have happ : g ++ r = d :: t := takeRunF_append w 64 (d :: t)
      have hlensum : g.length + r.length = t.length + 1 := by
        have := congrArg List.length happ
        simpa [List.length_append] using this
      have hplen : ((g.map (beBytes w)).flatten).length = (w + 1) * g.length := by
        rw [List.length_flatten, List.map_map]
        have : (List.length ∘ beBytes w) = fun _ => w + 1 := by
          funext x
          exact beBytes_length w x hw3
        rw [this, List.map_const', List.sum_replicate, smul_eq_mul, Nat.mul_comm]
      simp only [List.length_cons, List.length_append] at hf hn
      cases f with
      | zero => omega
      | succ f =>
        rw [List.cons_append, countGroupsF]
        have hmod : (w + 4 * (g.length - 1)) % 4 = w := by omega
        have hdiv : (w + 4 * (g.length - 1)) / 4 + 1 = g.length := by omega
        rw [hmod, hdiv]
        have hneed : (w + 1) * g.length ≤
            ((g.map (beBytes w)).flatten ++ encodeGroups r).length := by
          rw [List.length_append, hplen]
          omega
        rw [if_pos hneed]
        rw [show (w + 1) * g.length = ((g.map (beBytes w)).flatten).length from hplen.symm]
        rw [List.drop_left]
        rw [ih r f (by omega) (by omega)]
        show some (g.length + r.length) = some (t.length + 1)
        rw [hlensum]

/-! ## Codec round trip -/

theorem diffs_lt (B : Nat) : ∀ (L : List Nat), (∀ v ∈ L, v < B) →
    ∀ d ∈ diffs L, d < B := by
  intro L
  induction L with
  | nil => intro _ d hd; simp [diffs] at hd
  | cons x t ih =>
    intro hm d hd
    cases t with
    | nil => simp [diffs] at hd
    | cons y t2 =>
      rw [diffs] at hd
      rcases List.mem_cons.mp hd with rfl | hd2
      · have : y < B := hm y (by simp)
        omega
      · exact ih (fun v hv => hm v (List.mem_cons_of_mem _ hv)) d hd2

theorem diffs_length : ∀ L : List Nat, (diffs L).length = L.length - 1 := by
  intro L
  induction L with
  | nil => rfl
  | cons x t ih =>
    cases t with
    | nil => rfl
    | cons y t2 =>
      rw [diffs]
      simp only [List.length_cons] at ih ⊢
      omega

theorem sumsFrom_diffs : ∀ (vs : List Nat) (v : Nat), List.Chain' (· ≤ ·) (v :: vs) →
    sumsFrom v (diffs (v :: vs)) = vs := by
  intro vs
  induction vs with
  | nil => intro v _; rfl
  | cons y t ih =>
    intro v hc
    rw [List.chain'_cons] at hc
    rw [diffs, sumsFrom]
    have hv : v + (y - v) = y := by
      have := hc.1
      omega
    rw [hv, ih y hc.2]

/-- Round trip of the codec on a non-decreasing neighbour list of u32
values: decoding the encoding yields the list back. -/
theorem decode_encode (s : Nat) (L : List Nat) (hc : List.Chain' (· ≤ ·) L)
    (hb : ∀ v ∈ L, v < 4294967296) : decode s (encode s L) = some L := by
  cases L with
  | nil => rfl
  | cons v vs =>
    obtain ⟨b0, cb, hfe, hrh⟩ :=
      readHead_firstEdgeBytes s v (encodeGroups (diffs (v :: vs)))
    rw [encode, hfe, List.cons_append, decode, hrh]
    show (decodeGroupsF (encodeGroups (diffs (v :: vs))).length v
      (encodeGroups (diffs (v :: vs)))).map (fun x => v :: x) = some (v :: vs)
    rw [decodeGroupsF_encodeGroups (diffs (v :: vs)).length (diffs (v :: vs)) v
      (encodeGroups (diffs (v :: vs))).length le_rfl
      (diffs_lt 4294967296 (v :: vs) hb) le_rfl]
    show some (v :: sumsFrom v (diffs (v :: vs))) = some (v :: vs)
    rw [sumsFrom_diffs vs v hc]

/-- The counter on an encoded list returns the list length, with no
hypotheses: count never inspects the payload values. -/
theorem count_encode (s : Nat) (L : List Nat) :
    count s (encode s L) = some L.length := by
  cases L with
  | nil => rfl
  | cons v vs =>
    obtain ⟨b0, cb, hfe, hrh⟩ :=
      readHead_firstEdgeBytes s v (encodeGroups (diffs (v :: vs)))
    rw [encode, hfe, List.cons_append, count, hrh]
    show (countGroupsF (encodeGroups (diffs (v :: vs))).length
      (encodeGroups (diffs (v :: vs)))).map (fun x => 1 + x) = some (v :: vs).length
    rw [countGroupsF_encodeGroups (diffs (v :: vs)).length (diffs (v :: vs))
      (encodeGroups (diffs (v :: vs))).length le_rfl le_rfl]
    show some (1 + (diffs (v :: vs)).length) = some (v :: vs).length
    rw [diffs_length]
    simp only [List.length_cons]
    congr 1
    omega

theorem decode_encode_single (s v : Nat) : decode s (encode s [v]) = some [v] := by
  obtain ⟨b0, cb, hfe, hrh⟩ := readHead_firstEdgeBytes s v []
  rw [List.append_nil] at hrh
  show decode s (firstEdgeBytes s v ++ []) = some [v]
  rw [List.append_nil, hfe, decode, hrh]
  show (decodeGroupsF ([] : List Nat).length v []).map (fun x => v :: x) = some [v]
  rw [decodeGroupsF_nil]
  rfl

theorem encode_single_headD (s v : Nat) :
    (encode s [v]).headD 0 / 64 % 2 = 1 ↔ v < s := by
  show ((firstEdgeBytes s v ++ encodeGroups (diffs [v])).headD 0) / 64 % 2 = 1 ↔ v < s
  unfold firstEdgeBytes
  simp only [List.cons_append, List.headD_cons]
  by_cases hvs : v < s
  · simp only [if_pos hvs]
    constructor
    · intro _; exact hvs
    · intro _
      by_cases hq : 0 < (s - v) / 64
      · rw [if_pos hq]; omega
      · rw [if_neg hq]; omega
  · simp only [if_neg hvs]
    constructor
    · intro h
      exfalso
      by_cases hq : 0 < (v - s) / 64
      · rw [if_pos hq] at h; omega
      · rw [if_neg hq] at h; omega
    · intro h; exact absurd h hvs

/-- Claim C1: for every strictly sorted, deduplicated list L of u32
values and every source s, decoding the encoding of L reproduces L,
counting it reproduces its length, and for empty L the encoder emits no
bytes and count returns 0. -/
theorem c1_codec_round_trip (s : Nat) (L : List Nat)
    (hsort : List.Chain' (· < ·) L) (hb : ∀ v ∈ L, v < 4294967296) :
    decode s (encode s L) = some L ∧ count s (encode s L) = some L.length ∧
      encode s [] = [] ∧ count s (encode s []) = some 0 :=
  ⟨decode_encode s L (hsort.imp (fun _ _ hab => le_of_lt hab)) hb,
    count_encode s L, rfl, rfl⟩

/-- Witness for C1 at s = 2 and L = [1, 5, 300]. -/
theorem c1_codec_round_trip_witness :
    decode 2 (encode 2 [1, 5, 300]) = some [1, 5, 300] ∧
      count 2 (encode 2 [1, 5, 300]) = some 3 ∧
      encode 2 [] = [] ∧ count 2 (encode 2 []) = some 0 := by
  obtain ⟨h1, h2, h3, h4⟩ := c1_codec_round_trip 2 [1, 5, 300]
    (by simp [List.chain'_cons, List.chain'_singleton]) (by decide)
  exact ⟨h1, by simpa using h2, h3, h4⟩

/-- Claim C8: for a single-neighbour list [v] and any source s, the
first byte of the encoding has bit 0x40 set (its value divided by 64 is
odd) exactly when v < s, decoding returns [v], and encoding neighbour
list [2] from source 5 produces the single byte 0x43. -/
theorem c8_gap_head_sign (s v : Nat) :
    ((encode s [v]).headD 0 / 64 % 2 = 1 ↔ v < s) ∧
      decode s (encode s [v]) = some [v] ∧
      encode 5 [2] = [0x43] :=
  ⟨encode_single_headD s v, decode_encode_single s v, by decide⟩

/-! ## CSR container (src/csr/mod.rs, src/csr.rs) -/

/-- The Compressed Sparse Row triple of src/csr/mod.rs: byte offsets per
vertex, deduplicated edge count, and the concatenated encoded
neighbour-list bytes. -/
structure CSR where
  vertices : List Nat
  num_edges : Nat
  edges : List Nat
deriving DecidableEq

/-- The empty CSR of CSR::new, the unit of the by-value union. -/
def CSR.new : CSR := ⟨[], 0, []⟩

/-- Number of vertices: vertices.len().saturating_sub(1). -/
def CSR.order (g : CSR) : Nat := g.vertices.length - 1

/-- Number of edges: the stored num_edges field (CSR::size). -/
def CSR.size (g : CSR) : Nat := g.num_edges

/-- The raw byte slice of one vertex, from csr/mod.rs CSR::raw_adj: both
offset lookups are Option-guarded; an empty slice yields None.  The Rust
slice edges[start..end] is modelled with drop and take, which agree with
it whenever start <= end <= edges.len(), as holds for every CSR built by
the operations in this file. -/
def CSR.rawAdj (g : CSR) (u : Nat) : Option (List Nat) :=
  match g.vertices[u]?, g.vertices[u + 1]? with
  | some s, some e =>
    let sl := (g.edges.drop s).take (e - s)
    if 0 < sl.length then some sl else none
  | _, _ => none

/-- The decoded adjacency of one vertex, from csr/mod.rs CSR::adj:
raw_adj flat-mapped through the decoder.  A decoder failure is a panic
in the source and cannot occur on the canonical segments every
constructor produces; it is modelled by the empty default of getD. -/
def CSR.adj (g : CSR) (u : Nat) : List Nat :=
  match g.rawAdj u with
  | some sl => (decode u sl).getD []
  | none => []

/-- The degree of one vertex, from csr.rs CSR::degree: Option-guarded
offset lookups, then the counter on the byte slice, with unwrap_or(0).
A counter failure is a panic in the source, unreachable on canonical
segments, modelled by the zero default. -/
def CSR.degree (g : CSR) (u : Nat) : Nat :=
  match g.vertices[u]?, g.vertices[u + 1]? with
  | some s, some e => (count u ((g.edges.drop s).take (e - s))).getD 0
  | _, _ => 0

/-- Claim C9: adj and degree are total for every u32 argument; for u at
or above the vertex count (in particular on the empty CSR) the upper
offset lookup returns None, adj yields the empty sequence and degree
returns 0. -/
theorem c9_adj_degree_total (g : CSR) (u : Nat) (h : g.order ≤ u) :
    g.adj u = [] ∧ g.degree u = 0 := by
  have hnone : g.vertices[u + 1]? = none := by
    apply List.getElem?_eq_none
    unfold CSR.order at h
    omega
  unfold CSR.adj CSR.rawAdj CSR.degree
  rw [hnone]
  cases g.vertices[u]? <;> simp

/-- Witness for C9 on the empty CSR at u = 0. -/
theorem c9_adj_degree_total_witness :
    CSR.adj CSR.new 0 = [] ∧ CSR.degree CSR.new 0 = 0 :=
  c9_adj_degree_total CSR.new 0 (by decide)

/-! ## Builder (src/csr/par.rs edgelist_to_csr, src/csr.rs from_buffer) -/

/-- Lexicographic order on edges: source first, then target.  This is
the derived Ord of the Edge pair type the buffer sort uses. -/
def lexLe (a b : Nat × Nat) : Prop := a.1 < b.1 ∨ (a.1 = b.1 ∧ a.2 ≤ b.2)

instance : DecidableRel lexLe := fun a b =>
  inferInstanceAs (Decidable (a.1 < b.1 ∨ (a.1 = b.1 ∧ a.2 ≤ b.2)))

instance : IsTotal (Nat × Nat) lexLe := ⟨fun a b => by unfold lexLe; omega⟩

instance : IsTrans (Nat × Nat) lexLe := ⟨fun a b c => by unfold lexLe; omega⟩

/-- The buffer sort.  Models par_sort_unstable in lexicographic edge
order: since lexLe is a total, antisymmetric order on pairs, every sort
produces this unique sorted permutation, so insertion sort is a faithful
denotation of the unstable parallel sort of the source. -/
def sortEdges (buf : List (Nat × Nat)) : List (Nat × Nat) :=
  List.insertionSort lexLe buf

/-- Consecutive grouping of edges by equal source, as (source, targets
in order) pairs.  Models the partitioning of the sorted buffer: the
divide-and-conquer splitter of csr/par.rs only ever splits between two
adjacent edges with different sources and concatenates results left to
right, so its leaves are exactly the maximal constant-source runs that
this function produces (the final window of find_index_edgelist covers
the whole slice, so a leaf contains no source change). -/
def groupBySource : List (Nat × Nat) → List (Nat × List Nat)
  | [] => []
  | (u, v) :: rest =>
    match groupBySource rest with
    | [] => [(u, [v])]
    | (w, ts) :: gs =>
      if u = w then (u, v :: ts) :: gs else (u, [v]) :: (w, ts) :: gs

/-- Tail worker of the deduplicating iterator: drops elements equal to
the previously emitted one. -/
def dedupAdjGo (prev : Nat) : List Nat → List Nat
  | [] => []
  | x :: xs => if x = prev then dedupAdjGo prev xs else x :: dedupAdjGo x xs

/-- The Dedup iterator of src/iter.rs applied to one group: keeps the
first element and every element different from the last kept one.
Within a group all edges share the source, so deduplicating edges
equals deduplicating targets. -/
def dedupAdj : List Nat → List Nat
  | [] => []
  | x :: xs => x :: dedupAdjGo x xs

/-- Exclusive prefix sums: the running sums of init :: l, of length
l.length + 1.  This is the sequential denotation of the fold/reduce
exclusive_sum of src/csr/par.rs (and src/par.rs). -/
def exclusiveSum (init : Nat) : List Nat → List Nat
  | [] => [init]
  | x :: xs => init :: exclusiveSum (init + x) xs

/-- Placement of the per-source byte counts into a dense vector: for
each (u, nnz) in order the vector is resized with zeros up to index u
and nnz is pushed.  Models the resize/push loop over nodes_and_nnzs in
csr/par.rs edgelist_to_csr. -/
def placeNnzs (cur : Nat) : List (Nat × Nat) → List Nat
  | [] => []
  | (u, nnz) :: rest => List.replicate (u - cur) 0 ++ nnz :: placeNnzs (u + 1) rest

/-- The parallel builder of src/csr/par.rs edgelist_to_csr, as its
deterministic denotation: sort the buffer, split it into per-source
leaves (each leaf deduplicates its edges, encodes the targets against
the source, and reports the source, its byte count and its dedup count),
concatenate the leaf blobs left to right, sum the leaf counts (the
atomic counter), place the byte counts densely and take exclusive prefix
sums.  Returns (offsets, num_edges, blob). -/
def edgelist_to_csr (buf : List (Nat × Nat)) : List Nat × Nat × List Nat :=
  let G := groupBySource (sortEdges buf)
  let blob := (G.map (fun g => encode g.1 (dedupAdj g.2))).flatten
  let numEdges := (G.map (fun g => (dedupAdj g.2).length)).sum
  let nnzs := placeNnzs 0 (G.map (fun g => (g.1, (encode g.1 (dedupAdj g.2)).length)))
  (exclusiveSum 0 nnzs, numEdges, blob)

/-- CSR::from_buffer of src/csr/mod.rs: package the builder output. -/
def csrFromBuffer (buf : List (Nat × Nat)) : CSR :=
  ⟨(edgelist_to_csr buf).1, (edgelist_to_csr buf).2.1, (edgelist_to_csr buf).2.2⟩

/-- Maximum of a list of Nat, the denotation of par::max for a nonempty
list (and 0 for the empty list, which from_buffer never queries). -/
def maxNat (l : List Nat) : Nat := l.foldl max 0

/-- CSR::from_buffer of src/csr.rs: like the parallel builder but the
dense count vector is resized to num_nodes + 1 entries, where num_nodes
is the maximum over all endpoints (sources and targets), before the
prefix sums; resize is modelled as pad-then-take, which matches both of
its directions.  Each group is modelled as its own fold chunk, matching
the leaf-per-group splitting of the rayon producer. -/
def from_buffer (buf : List (Nat × Nat)) : CSR :=
  match buf with
  | [] => ⟨[], 0, []⟩
  | _ :: _ =>
    let numNodes := max (maxNat (buf.map Prod.fst)) (maxNat (buf.map Prod.snd))
    let G := groupBySource (sortEdges buf)
    let blob := (G.map (fun g => encode g.1 (dedupAdj g.2))).flatten
    let numEdges := (G.map (fun g => (dedupAdj g.2).length)).sum
    let nnzs0 := placeNnzs 0 (G.map (fun g => (g.1, (encode g.1 (dedupAdj g.2)).length)))
    let nnzs := (nnzs0 ++ List.replicate (numNodes + 1 - nnzs0.length) 0).take (numNodes + 1)
    ⟨exclusiveSum 0 nnzs, numEdges, blob⟩

/-- The deduplicated sorted target list of one source in a buffer, the
reference value for what the builder encodes for that source. -/
def targetsOf (buf : List (Nat × Nat)) (u : Nat) : List Nat :=
  dedupAdj ((sortEdges buf).filterMap (fun e => if e.1 = u then some e.2 else none))

example : (from_buffer [(0, 3)]).order = 4 := by decide
example : (from_buffer [(0, 3)]).adj 0 = [3] := by decide
example : (from_buffer [(0, 3)]).adj 1 = [] := by decide
example : (csrFromBuffer [(0, 1)]).vertices = [0, 1] := by decide
example : (csrFromBuffer [(1, 2)]).vertices = [0, 0, 1] := by decide
example : (csrFromBuffer [(0, 1), (0, 1), (0, 2), (0, 1)]).adj 0 = [1, 2] := by decide
example : (csrFromBuffer [(0, 1), (0, 1), (0, 2), (0, 1)]).size = 2 := by decide

/-! ## Offset-vector lemmas -/

theorem exclusiveSum_length (init : Nat) :
    ∀ l : List Nat, (exclusiveSum init l).length = l.length + 1 := by
  intro l
  induction l generalizing init with
  | nil => rfl
  | cons x xs ih => simp [exclusiveSum, ih (init + x)]

theorem exclusiveSum_ne_nil (init : Nat) (l : List Nat) : exclusiveSum init l ≠ [] := by
  cases l <;> simp [exclusiveSum]

theorem exclusiveSum_head (init : Nat) (l : List Nat) :
    (exclusiveSum init l).head? = some init := by
  cases l <;> rfl

theorem exclusiveSum_chain (init : Nat) :
    ∀ l : List Nat, List.Chain' (· ≤ ·) (exclusiveSum init l) := by
  intro l
  induction l generalizing init with
  | nil => simp [exclusiveSum]
  | cons x xs ih =>
    rw [exclusiveSum, List.chain'_cons']
    refine ⟨?_, ih (init + x)⟩
    intro y hy
    rw [exclusiveSum_head] at hy
    simp only [Option.mem_def, Option.some.injEq] at hy
    omega

theorem exclusiveSum_getElem (init : Nat) :
    ∀ (l : List Nat) (i : Nat), i ≤ l.length →
      (exclusiveSum init l)[i]? = some (init + (l.take i).sum) := by
  intro l
  induction l generalizing init with
  | nil =>
    intro i hi
    have h0 : i = 0 := by simpa using hi
    subst h0
    simp [exclusiveSum]
  | cons x xs ih =>
    intro i hi
    cases i with
    | zero => simp [exclusiveSum]
    | succ i =>
      simp only [exclusiveSum, List.getElem?_cons_succ]
      rw [ih (init + x) i (by simpa using hi)]
      simp only [List.take_succ_cons, List.sum_cons, Option.some.injEq]
      omega

theorem exclusiveSum_getD (init : Nat) (l : List Nat) (i : Nat) (hi : i ≤ l.length) :
    (exclusiveSum init l).getD i 0 = init + (l.take i).sum := by
  rw [List.getD_eq_getElem?_getD, exclusiveSum_getElem init l i hi]
  rfl

theorem exclusiveSum_getLast (init : Nat) (l : List Nat) :
    (exclusiveSum init l).getLast? = some (init + l.sum) := by
  rw [List.getLast?_eq_getElem?, exclusiveSum_length]
  simpa using exclusiveSum_getElem init l l.length le_rfl

theorem sum_take_succ_getD :
    ∀ (l : List Nat) (i : Nat), i < l.length →
      (l.take (i + 1)).sum = (l.take i).sum + l.getD i 0 := by
  intro l
  induction l with
  | nil => intro i hi; simp at hi
  | cons x xs ih =>
    intro i hi
    cases i with
    | zero => simp
    | succ i =>
      simp only [List.take_succ_cons, List.sum_cons, List.getD_cons_succ]
      rw [ih i (by simpa using hi)]
      omega

theorem flatten_slice :
    ∀ (segs : List (List Nat)) (i : Nat), i < segs.length →
      ((segs.flatten).drop (((segs.map List.length).take i).sum)).take
          (segs.getD i []).length = segs.getD i [] := by
  intro segs
  induction segs with
  | nil => intro i hi; simp at hi
  | cons c cs ih =>
    intro i hi
    cases i with
    | zero =>
      simp only [List.take_zero, List.sum_nil, List.drop_zero, List.getD_cons_zero,
        List.flatten_cons]
      exact List.take_left c cs.flatten
    | succ i =>
      simp only [List.flatten_cons, List.map_cons, List.take_succ_cons, List.sum_cons,
        List.getD_cons_succ]
      rw [List.drop_append]
      exact ih i (by simpa using hi)

/-! ## Grouping lemmas -/

/-- Association lookup by source id, the reference accessor for the
grouped per-source data in the proofs below. -/
def lookupG {β : Type} (x : Nat) : List (Nat × β) → Option β
  | [] => none
  | (k, b) :: rest => if x = k then some b else lookupG x rest

/-- All targets of one source in order of appearance. -/
def tgts (l : List (Nat × Nat)) (x : Nat) : List Nat :=
  l.filterMap (fun e => if e.1 = x then some e.2 else none)

theorem lookupG_none {β : Type} :
    ∀ (ps : List (Nat × β)) (x : Nat), (∀ k ∈ ps.map Prod.fst, ¬ x = k) →
      lookupG x ps = none := by
  intro ps
  induction ps with
  | nil => intro x _; rfl
  | cons p ps ih =>
    intro x h
    obtain ⟨k, b⟩ := p
    rw [lookupG, if_neg (h k (by simp))]
    exact ih x (fun k2 hk2 => h k2 (by simp [hk2]))

theorem tgts_cons (u v x : Nat) (rest : List (Nat × Nat)) :
    tgts ((u, v) :: rest) x =
      if u = x then v :: tgts rest x else tgts rest x := by
  unfold tgts
  rw [List.filterMap_cons]
  by_cases h : u = x <;> simp [h]

theorem groupBySource_cons (u v : Nat) (rest : List (Nat × Nat)) :
    groupBySource ((u, v) :: rest) =
      match groupBySource rest with
      | [] => [(u, [v])]
      | (w, ts) :: gs => if u = w then (u, v :: ts) :: gs
                         else (u, [v]) :: (w, ts) :: gs := rfl

theorem groupBySource_cons_nil (u v : Nat) (rest : List (Nat × Nat))
    (h : groupBySource rest = []) :
    groupBySource ((u, v) :: rest) = [(u, [v])] := by
  rw [groupBySource_cons, h]

theorem groupBySource_cons_cons (u v w : Nat) (ts : List Nat)
    (gs : List (Nat × List Nat)) (rest : List (Nat × Nat))
    (h : groupBySource rest = (w, ts) :: gs) :
    groupBySource ((u, v) :: rest) =
      if u = w then (u, v :: ts) :: gs else (u, [v]) :: (w, ts) :: gs := by
  rw [groupBySource_cons, h]

theorem groupBySource_eq_nil_iff :
    ∀ l : List (Nat × Nat), groupBySource l = [] ↔ l = [] := by
  intro l
  cases l with
  | nil => simp [groupBySource]
  | cons e rest =>
    obtain ⟨u, v⟩ := e
    constructor
    · intro h
      exfalso
      cases hg : groupBySource rest with
      | nil => rw [groupBySource_cons_nil u v rest hg] at h; simp at h
      | cons g gs =>
        obtain ⟨w, ts⟩ := g
        rw [groupBySource_cons_cons u v w ts gs rest hg] at h
        by_cases hu : u = w
        · rw [if_pos hu] at h; simp at h
        · rw [if_neg hu] at h; simp at h
    · intro h; simp at h

/-- Correctness of the consecutive grouping on a sorted buffer: the
group keys are strictly increasing, every key occurs as a source in the
buffer, and looking a source up yields exactly its target list (None for
sources with no edge). -/
theorem groupBySource_spec :
    ∀ l : List (Nat × Nat), List.Pairwise lexLe l →
      List.Chain' (· < ·) ((groupBySource l).map Prod.fst) ∧
      (∀ k ∈ (groupBySource l).map Prod.fst, k ∈ l.map Prod.fst) ∧
      (∀ x, lookupG x (groupBySource l) =
        if tgts l x = [] then none else some (tgts l x)) := by
  intro l
  induction l with
  | nil =>
    intro _
    refine ⟨by simp [groupBySource], by simp [groupBySource], ?_⟩
    intro x
    simp [groupBySource, tgts, lookupG]
  | cons e rest ih =>
    obtain ⟨u, v⟩ := e
    intro hp
    rw [List.pairwise_cons] at hp
    obtain ⟨hhead, hrest⟩ := hp
    obtain ⟨ihC, ihS, ihL⟩ := ih hrest
    cases hG : groupBySource rest with
    | nil =>
      have hrnil : rest = [] := (groupBySource_eq_nil_iff rest).mp hG
      subst hrnil
      rw [groupBySource_cons_nil u v [] hG]
      refine ⟨by simp, by simp, ?_⟩
      intro x
      by_cases hux : u = x
      · subst hux
        simp [lookupG, tgts_cons, tgts]
      · have hxu : ¬ x = u := fun hh => hux hh.symm
        simp [lookupG, tgts_cons, hux, hxu, tgts]
    | cons g gs =>
      obtain ⟨w, ts⟩ := g
      have hts : ts = tgts rest w ∧ tgts rest w ≠ [] := by
        have hl := ihL w
        rw [hG, lookupG, if_pos rfl] at hl
        by_cases hfm : tgts rest w = []
        · rw [if_pos hfm] at hl; exact absurd hl (by simp)
        · rw [if_neg hfm] at hl
          exact ⟨Option.some.inj hl, hfm⟩
      have hwmem : w ∈ rest.map Prod.fst := ihS w (by rw [hG]; simp)
      have huw : u ≤ w := by
        obtain ⟨e2, he2, hfe2⟩ := List.mem_map.mp hwmem
        have hle := hhead e2 he2
        unfold lexLe at hle
        omega
      have hgt : ∀ k ∈ gs.map Prod.fst, w < k := by
        have hc := ihC
        rw [hG] at hc
        simp only [List.map_cons] at hc
        have hpw := List.chain'_iff_pairwise.mp hc
        exact fun k hk => (List.pairwise_cons.mp hpw).1 k hk
      rw [groupBySource_cons_cons u v w ts gs rest hG]
      by_cases hu : u = w
      · subst hu
        rw [if_pos rfl]
        refine ⟨?_, ?_, ?_⟩
        · have hc := ihC
          rw [hG] at hc
          simpa using hc
        · intro k hk
          simp only [List.map_cons, List.mem_cons] at hk ⊢
          rcases hk with rfl | hk
          · left; rfl
          · right
            exact ihS k (by rw [hG]; simp [hk])
        · intro x
          by_cases hx : x = u
          · subst hx
            simp [lookupG, tgts_cons, hts.1]
          · have hxu : ¬ u = x := fun hh => hx hh.symm
            have hl := ihL x
            rw [hG, lookupG, if_neg hx] at hl
            simp [lookupG, tgts_cons, hx, hxu, hl]
      · have hultw : u < w := lt_of_le_of_ne huw hu
        rw [if_neg hu]
        refine ⟨?_, ?_, ?_⟩
        · simp only [List.map_cons]
          rw [List.chain'_cons]
          refine ⟨hultw, ?_⟩
          have hc := ihC
          rw [hG] at hc
          simpa using hc
        · intro k hk
          simp only [List.map_cons, List.mem_cons] at hk ⊢
          rcases hk with rfl | hk
          · left; rfl
          · right
            exact ihS k (by rw [hG]; simpa using hk)
        · intro x
          by_cases hx : x = u
          · subst hx
            have hnone : lookupG x gs = none := by
              apply lookupG_none
              intro k hk
              have := hgt k hk
              omega
            have hl := ihL x
            rw [hG, lookupG, if_neg (by omega : ¬ x = w), hnone] at hl
            have htx : tgts rest x = [] := by
              by_contra hfm
              rw [if_neg hfm] at hl
              exact absurd hl (by simp)
            simp [lookupG, tgts_cons, htx]
          · have hxu : ¬ u = x := fun hh => hx hh.symm
            have hl := ihL x
            rw [hG] at hl
            rw [lookupG, if_neg hx, hl, tgts_cons, if_neg hxu]

/-- Dense normal form of the count placement and the blob: for a group
list with strictly increasing keys at least cur, the placed count vector
and the concatenated blob both agree with a dense traversal of the index
range up to some bound K, looking each index up in the groups. -/
theorem place_and_flatten (e : Nat → List Nat → List Nat) :
    ∀ (G : List (Nat × List Nat)) (cur : Nat),
      List.Chain' (· < ·) (G.map Prod.fst) →
      (∀ k ∈ G.map Prod.fst, cur ≤ k) →
      ∃ K, cur ≤ K ∧
        placeNnzs cur (G.map (fun g => (g.1, (e g.1 g.2).length))) =
          (List.range' cur (K - cur)).map
            (fun x => (((lookupG x G).map (e x)).getD []).length) ∧
        (G.map (fun g => e g.1 g.2)).flatten =
          ((List.range' cur (K - cur)).map
            (fun x => ((lookupG x G).map (e x)).getD [])).flatten := by
  intro G
  induction G with
  | nil =>
    intro cur _ _
    exact ⟨cur, le_rfl, by simp [placeNnzs], by simp⟩
  | cons g G' ih =>
    obtain ⟨u, ts⟩ := g
    intro cur hchain hcur
    simp only [List.map_cons] at hchain hcur
    have hpw := List.chain'_iff_pairwise.mp hchain
    rw [List.pairwise_cons] at hpw
    obtain ⟨hgtu, hpw'⟩ := hpw
    have hchain' : List.Chain' (· < ·) (G'.map Prod.fst) :=
      List.chain'_iff_pairwise.mpr hpw'
    have hcuru : cur ≤ u := hcur u (List.mem_cons_self u _)
    obtain ⟨K, hK1, hK2, hK3⟩ := ih (u + 1) hchain' (fun k hk => hgtu k hk)
    have hcurU : cur + (u - cur) = u := by omega
    have hsplit : List.range' cur (K - cur) =
        List.range' cur (u - cur) ++ (u :: List.range' (u + 1) (K - (u + 1))) := by
      have hKcur : K - cur = (K - u) + (u - cur) := by omega
      have hKu : K - u = (K - (u + 1)) + 1 := by omega
      calc List.range' cur (K - cur)
          = List.range' cur ((K - u) + (u - cur)) := by rw [hKcur]
        _ = List.range' cur (u - cur) ++ List.range' (cur + (u - cur)) (K - u) :=
            (List.range'_append_1 cur (u - cur) (K - u)).symm
        _ = List.range' cur (u - cur) ++ List.range' u (K - u) := by rw [hcurU]
        _ = List.range' cur (u - cur) ++ (u :: List.range' (u + 1) (K - (u + 1))) := by
            rw [hKu, List.range'_succ]
    have hlow : ∀ x ∈ List.range' cur (u - cur), lookupG x ((u, ts) :: G') = none := by
      intro x hx
      rw [List.mem_range'_1] at hx
      rw [lookupG, if_neg (by omega)]
      apply lookupG_none
      intro k hk
      have := hgtu k hk
      omega
    have hmid : lookupG u ((u, ts) :: G') = some ts := by
      rw [lookupG, if_pos rfl]
    have hhigh : ∀ x ∈ List.range' (u + 1) (K - (u + 1)),
        lookupG x ((u, ts) :: G') = lookupG x G' := by
      intro x hx
      rw [List.mem_range'_1] at hx
      rw [lookupG, if_neg (by omega)]
    refine ⟨K, by omega, ?_, ?_⟩
    · rw [hsplit]
      simp only [List.map_cons, List.map_append, placeNnzs]
      congr 1
      · rw [List.map_congr_left (g := fun _ => (0 : Nat))
          (fun x hx => by rw [hlow x hx]; rfl)]
        rw [List.map_const', List.length_range']
      · rw [hmid, hK2]
        congr 1
        apply List.map_congr_left
        intro x hx
        rw [hhigh x hx]
    · rw [hsplit]
      simp only [List.map_cons, List.map_append, List.flatten_append, List.flatten_cons]
      have hlowflat :
          ((List.range' cur (u - cur)).map
            (fun x => ((lookupG x ((u, ts) :: G')).map (e x)).getD [])).flatten = [] := by
        rw [List.flatten_eq_nil_iff]
        intro c hc
        obtain ⟨x, hx, rfl⟩ := List.mem_map.mp hc
        rw [hlow x hx]
        rfl
      rw [hlowflat, List.nil_append, hmid, hK3]
      congr 2
      apply List.map_congr_left
      intro x hx
      rw [hhigh x hx]

theorem map_range_getD {β : Type} (K u : Nat) (f : Nat → β) (d : β) (h : u < K) :
    ((List.range K).map f).getD u d = f u := by
  rw [List.getD_eq_getElem?_getD, List.getElem?_map, List.getElem?_range h]
  rfl

/-- The builder output in dense form: the offsets are the exclusive
sums of the per-vertex encoded-segment lengths over an index range, and
the blob is the concatenation of those segments. -/
theorem builder_dense (buf : List (Nat × Nat)) :
    ∃ K, (edgelist_to_csr buf).1 = exclusiveSum 0
        ((List.range K).map (fun x => (encode x (targetsOf buf x)).length)) ∧
      (edgelist_to_csr buf).2.2 =
        ((List.range K).map (fun x => encode x (targetsOf buf x))).flatten := by
  have hp : List.Pairwise lexLe (sortEdges buf) :=
    List.sorted_insertionSort lexLe buf
  obtain ⟨hC, hS, hL⟩ := groupBySource_spec (sortEdges buf) hp
  obtain ⟨K, hK0, h2, h3⟩ := place_and_flatten (fun u ts => encode u (dedupAdj ts))
    (groupBySource (sortEdges buf)) 0 hC (fun k _ => Nat.zero_le k)
  have hfun : ∀ x, ((lookupG x (groupBySource (sortEdges buf))).map
      (fun ts => encode x (dedupAdj ts))).getD [] = encode x (targetsOf buf x) := by
    intro x
    rw [hL x]
    by_cases hfm : tgts (sortEdges buf) x = []
    · rw [if_pos hfm]
      show ([] : List Nat) = encode x (targetsOf buf x)
      have : targetsOf buf x = dedupAdj (tgts (sortEdges buf) x) := rfl
      rw [this, hfm]
      rfl
    · rw [if_neg hfm]
      rfl
  refine ⟨K, ?_, ?_⟩
  · show exclusiveSum 0 (placeNnzs 0 ((groupBySource (sortEdges buf)).map
      (fun g => (g.1, (encode g.1 (dedupAdj g.2)).length)))) = _
    rw [h2]
    congr 1
    rw [List.range_eq_range', Nat.sub_zero]
    apply List.map_congr_left
    intro x _
    rw [← hfun x]
  · show ((groupBySource (sortEdges buf)).map
      (fun g => encode g.1 (dedupAdj g.2))).flatten = _
    rw [h3]
    congr 1
    rw [List.range_eq_range', Nat.sub_zero]
    apply List.map_congr_left
    intro x _
    rw [← hfun x]

/-- Claim C3: for every CSR from the builder, the offsets sequence has
length order + 1, is non-decreasing, starts at 0, ends at the blob
length, and vertex u's encoded neighbours occupy exactly the byte range
offsets[u] .. offsets[u+1] of the blob. -/
theorem c3_builder_offsets (buf : List (Nat × Nat)) :
    (edgelist_to_csr buf).1.head? = some 0 ∧
    List.Chain' (· ≤ ·) (edgelist_to_csr buf).1 ∧
    (edgelist_to_csr buf).1.getLast? = some (edgelist_to_csr buf).2.2.length ∧
    (edgelist_to_csr buf).1.length = (csrFromBuffer buf).order + 1 ∧
    ∀ u, u + 1 < (edgelist_to_csr buf).1.length →
      ((edgelist_to_csr buf).2.2.drop ((edgelist_to_csr buf).1.getD u 0)).take
          ((edgelist_to_csr buf).1.getD (u + 1) 0 - (edgelist_to_csr buf).1.getD u 0) =
        encode u (targetsOf buf u) := by
  obtain ⟨K, hv, hb⟩ := builder_dense buf
  have hnn : (List.range K).map (fun x => (encode x (targetsOf buf x)).length) =
      ((List.range K).map (fun x => encode x (targetsOf buf x))).map List.length := by
    rw [List.map_map]
    rfl
  have hlenv : (edgelist_to_csr buf).1.length = K + 1 := by
    rw [hv, exclusiveSum_length]
    simp
  refine ⟨?_, ?_, ?_, ?_, ?_⟩
  · rw [hv, exclusiveSum_head]
  · rw [hv]; exact exclusiveSum_chain 0 _
  · rw [hv, hb, exclusiveSum_getLast, List.length_flatten]
    rw [← hnn, Nat.zero_add]
  · show _ = (edgelist_to_csr buf).1.length - 1 + 1
    omega
  · intro u hu
    have huK : u < K := by omega
    have hgd1 : (edgelist_to_csr buf).1.getD u 0 =
        (((List.range K).map (fun x => (encode x (targetsOf buf x)).length)).take u).sum := by
      rw [hv, exclusiveSum_getD 0 _ u (by simp; omega), Nat.zero_add]
    have hgd2 : (edgelist_to_csr buf).1.getD (u + 1) 0 =
        (((List.range K).map (fun x => (encode x (targetsOf buf x)).length)).take (u + 1)).sum := by
      rw [hv, exclusiveSum_getD 0 _ (u + 1) (by simp; omega), Nat.zero_add]
    have hsucc := sum_take_succ_getD
      ((List.range K).map (fun x => (encode x (targetsOf buf x)).length)) u (by simp; omega)
    have hgdu : ((List.range K).map
        (fun x => (encode x (targetsOf buf x)).length)).getD u 0 =
        (encode u (targetsOf buf u)).length :=
      map_range_getD K u _ 0 huK
    have hdiff : (edgelist_to_csr buf).1.getD (u + 1) 0 -
        (edgelist_to_csr buf).1.getD u 0 = (encode u (targetsOf buf u)).length := by
      rw [hgd1, hgd2, hsucc, hgdu]
      omega
    rw [hdiff, hb, hgd1, hnn]
    have hslice := flatten_slice ((List.range K).map (fun x => encode x (targetsOf buf x)))
      u (by simp; omega)
    rw [map_range_getD K u _ [] huK] at hslice
    exact hslice

theorem foldl_max_le_init : ∀ (l : List Nat) (a : Nat), a ≤ l.foldl max a := by
  intro l
  induction l with
  | nil => intro a; exact le_rfl
  | cons x t ih =>
    intro a
    exact le_trans (Nat.le_max_left a x) (ih (max a x))

theorem le_foldl_max : ∀ (l : List Nat) (a x : Nat), x ∈ l → x ≤ l.foldl max a := by
  intro l
  induction l with
  | nil => intro a x hx; simp at hx
  | cons y t ih =>
    intro a x hx
    rcases List.mem_cons.mp hx with rfl | hx
    · exact le_trans (Nat.le_max_right a x) (foldl_max_le_init t (max a x))
    · exact ih (max a y) x hx

theorem le_maxNat (l : List Nat) (x : Nat) (h : x ∈ l) : x ≤ maxNat l :=
  le_foldl_max l 0 x h

theorem placeNnzs_length_le (B : Nat) :
    ∀ (ps : List (Nat × Nat)) (cur : Nat),
      List.Chain' (· < ·) (ps.map Prod.fst) →
      (∀ k ∈ ps.map Prod.fst, cur ≤ k) →
      (∀ k ∈ ps.map Prod.fst, k < B) →
      (placeNnzs cur ps).length ≤ B - cur := by
  intro ps
  induction ps with
  | nil => intro cur _ _ _; simp [placeNnzs]
  | cons p rest ih =>
    obtain ⟨u, z⟩ := p
    intro cur hchain hcur hB
    simp only [List.map_cons] at hchain hcur hB
    have hpw := List.chain'_iff_pairwise.mp hchain
    rw [List.pairwise_cons] at hpw
    have hrec := ih (u + 1) (List.chain'_iff_pairwise.mpr hpw.2)
      (fun k hk => hpw.1 k hk) (fun k hk => hB k (by simp [hk]))
    have hcu : cur ≤ u := hcur u (by simp)
    have huB : u < B := hB u (by simp)
    rw [placeNnzs]
    simp only [List.length_append, List.length_cons, List.length_replicate]
    omega

theorem from_buffer_order (e0 : Nat × Nat) (rest : List (Nat × Nat)) :
    (from_buffer (e0 :: rest)).order =
      max (maxNat ((e0 :: rest).map Prod.fst))
        (maxNat ((e0 :: rest).map Prod.snd)) + 1 := by
  have hp : List.Pairwise lexLe (sortEdges (e0 :: rest)) :=
    List.sorted_insertionSort lexLe (e0 :: rest)
  obtain ⟨hC, hS, _⟩ := groupBySource_spec (sortEdges (e0 :: rest)) hp
  set N := max (maxNat ((e0 :: rest).map Prod.fst))
    (maxNat ((e0 :: rest).map Prod.snd)) with hN
  have hkeys : ∀ k ∈ (groupBySource (sortEdges (e0 :: rest))).map Prod.fst, k < N + 1 := by
    intro k hk
    have hk2 : k ∈ (sortEdges (e0 :: rest)).map Prod.fst := hS k hk
    have hk3 : k ∈ (e0 :: rest).map Prod.fst :=
      ((List.perm_insertionSort lexLe (e0 :: rest)).map Prod.fst).mem_iff.mp hk2
    have := le_maxNat _ k hk3
    omega
  have hchainP : List.Chain' (· < ·)
      (((groupBySource (sortEdges (e0 :: rest))).map
        (fun g => (g.1, (encode g.1 (dedupAdj g.2)).length))).map Prod.fst) := by
    rw [List.map_map]
    exact hC
  have hkeysP : ∀ k ∈ ((groupBySource (sortEdges (e0 :: rest))).map
      (fun g => (g.1, (encode g.1 (dedupAdj g.2)).length))).map Prod.fst, k < N + 1 := by
    rw [List.map_map]
    exact hkeys
  have hlen0 := placeNnzs_length_le (N + 1)
    ((groupBySource (sortEdges (e0 :: rest))).map
      (fun g => (g.1, (encode g.1 (dedupAdj g.2)).length)))
    0 hchainP (fun k _ => Nat.zero_le k) hkeysP
  rw [Nat.sub_zero] at hlen0
  show (from_buffer (e0 :: rest)).vertices.length - 1 = N + 1
  rw [from_buffer]
  simp only [exclusiveSum_length, List.length_take, List.length_append,
    List.length_replicate]
  omega

/-- Claim C4: csr.rs from_buffer pads the vertex count to cover the
maximum target id as well as the maximum source id; concretely the
single edge (0,3) yields order 4, adj 0 = [3] and empty adjacency for
vertices 1, 2, 3, and in general every endpoint of every input edge is
a valid vertex index. -/
theorem c4_vertex_padding (buf : List (Nat × Nat)) (hne : buf ≠ []) :
    (∀ e ∈ buf, e.1 < (from_buffer buf).order ∧ e.2 < (from_buffer buf).order) ∧
    (from_buffer [(0, 3)]).order = 4 ∧
    (from_buffer [(0, 3)]).adj 0 = [3] ∧
    (from_buffer [(0, 3)]).adj 1 = [] ∧
    (from_buffer [(0, 3)]).adj 2 = [] ∧
    (from_buffer [(0, 3)]).adj 3 = [] := by
  refine ⟨?_, by decide, by decide, by decide, by decide, by decide⟩
  intro e he
  cases buf with
  | nil => exact absurd rfl hne
  | cons e0 rest =>
    rw [from_buffer_order e0 rest]
    have h1 : e.1 ≤ maxNat ((e0 :: rest).map Prod.fst) :=
      le_maxNat _ e.1 (List.mem_map.mpr ⟨e, he, rfl⟩)
    have h2 : e.2 ≤ maxNat ((e0 :: rest).map Prod.snd) :=
      le_maxNat _ e.2 (List.mem_map.mpr ⟨e, he, rfl⟩)
    omega

/-- Witness for C4 at buf = [(0,3)] and edge (0,3). -/
theorem c4_vertex_padding_witness :
    ((0, 3) : Nat × Nat).1 < (from_buffer [(0, 3)]).order ∧
      ((0, 3) : Nat × Nat).2 < (from_buffer [(0, 3)]).order ∧
      (from_buffer [(0, 3)]).order = 4 := by
  obtain ⟨hall, hord, _⟩ := c4_vertex_padding [(0, 3)] (by decide)
  obtain ⟨ha, hb⟩ := hall (0, 3) (by decide)
  exact ⟨ha, hb, hord⟩

/-! ## Union (src/iter.rs Union, src/csr/mod.rs BitOr) -/

/-- Sorted-merge union of two lists, the denotation of the Union
iterator of src/iter.rs: emit the smaller head, advancing one side, or
both on a tie.  Fuel-indexed with the total length as sufficient fuel. -/
def unionMF : Nat → List Nat → List Nat → List Nat
  | 0, _, _ => []
  | _+1, [], ys => ys
  | _+1, x :: xs, [] => x :: xs
  | f+1, x :: xs, y :: ys =>
    if x < y then x :: unionMF f xs (y :: ys)
    else if x = y then x :: unionMF f xs ys
    else y :: unionMF f (x :: xs) ys

/-- Sorted-merge union of two lists. -/
def unionM (xs ys : List Nat) : List Nat := unionMF (xs.length + ys.length) xs ys

/-- One iteration of the union loop of the reference BitOr of
src/csr/mod.rs: push the current blob length as the offset of vertex u,
then merge the decoded neighbour lists (counting the union length into
num_edges) when both sides have one, copy the raw bytes without touching
num_edges when only one side has one, and do nothing when neither does.
The decoder default [] models the panic on a malformed segment, which is
unreachable for the canonical segments all constructors emit. -/
def bitorStep (g h : CSR) (acc : List Nat × Nat × List Nat) (u : Nat) :
    List Nat × Nat × List Nat :=
  let vs := acc.1 ++ [acc.2.2.length]
  match g.rawAdj u, h.rawAdj u with
  | some bs1, some bs2 =>
    let m := unionM ((decode u bs1).getD []) ((decode u bs2).getD [])
    (vs, acc.2.1 + m.length, acc.2.2 ++ encode u m)
  | some bs1, none => (vs, acc.2.1, acc.2.2 ++ bs1)
  | none, some bs2 => (vs, acc.2.1, acc.2.2 ++ bs2)
  | none, none => (vs, acc.2.1, acc.2.2)

/-- The reference union of src/csr/mod.rs (impl BitOr for &CSR): loop u
over 0 .. max(len, len) - 1 building offsets, count and blob, then push
the final blob length. -/
def refBitor (g h : CSR) : CSR :=
  let r := (List.range (max g.vertices.length h.vertices.length - 1)).foldl
    (bitorStep g h) ([], 0, [])
  ⟨r.1 ++ [r.2.2.length], r.2.1, r.2.2⟩

/-- The by-value union of src/csr/mod.rs (impl BitOr for CSR): an empty
vertex vector on either side short-circuits to the other operand before
the reference union runs. -/
def valBitor (g h : CSR) : CSR :=
  if g.vertices.length = 0 then h
  else if h.vertices.length = 0 then g
  else refBitor g h

/-- The in-place union of src/csr/mod.rs (impl BitOrAssign for CSR), as
the function from the old value of self and rhs to the new value of
self: same short-circuits as the by-value operator. -/
def bitorAssign (g h : CSR) : CSR :=
  if g.vertices.length = 0 then h
  else if h.vertices.length = 0 then g
  else refBitor g h

/-- Total decoded adjacency length over all vertices. -/
def decodedDegreeSum (g : CSR) : Nat :=
  ((List.range g.order).map (fun u => (g.adj u).length)).sum

/-- Claim C2 (refuted, code bug): the reference union of the CSRs built
from [(0,1)] and [(1,2)] holds two decodable edges but records
num_edges = 0, because the union only counts edges on the path where
both sides have a neighbour list; the builder inputs themselves satisfy
the invariant. -/
theorem c2_union_num_edges_bug :
    decodedDegreeSum (refBitor (csrFromBuffer [(0, 1)]) (csrFromBuffer [(1, 2)])) = 2 ∧
    (refBitor (csrFromBuffer [(0, 1)]) (csrFromBuffer [(1, 2)])).num_edges = 0 ∧
    decodedDegreeSum (csrFromBuffer [(0, 1)]) = (csrFromBuffer [(0, 1)]).num_edges ∧
    decodedDegreeSum (csrFromBuffer [(1, 2)]) = (csrFromBuffer [(1, 2)]).num_edges := by
  decide

/-- Claim C10: the empty CSR is a two-sided unit for the by-value union
operators, which short-circuit before the reference union runs; the
hypothesis pins the only CSR with an empty vertex vector reachable
through the public constructors, CSR::new itself. -/
theorem c10_empty_csr_unit (g : CSR) (h : g.vertices = [] → g = CSR.new) :
    valBitor CSR.new g = g ∧ valBitor g CSR.new = g ∧
    bitorAssign CSR.new g = g ∧ bitorAssign g CSR.new = g := by
  have hnew : CSR.new.vertices.length = 0 := rfl
  refine ⟨?_, ?_, ?_, ?_⟩
  · rw [valBitor, if_pos hnew]
  · by_cases hg : g.vertices.length = 0
    · rw [valBitor, if_pos hg]
      exact (h (List.length_eq_zero.mp hg)).symm
    · rw [valBitor, if_neg hg, if_pos hnew]
  · rw [bitorAssign, if_pos hnew]
  · by_cases hg : g.vertices.length = 0
    · rw [bitorAssign, if_pos hg]
      exact (h (List.length_eq_zero.mp hg)).symm
    · rw [bitorAssign, if_neg hg, if_pos hnew]

/-- Witness for C10 at the CSR built from [(0,1)]. -/
theorem c10_empty_csr_unit_witness :
    valBitor CSR.new (csrFromBuffer [(0, 1)]) = csrFromBuffer [(0, 1)] ∧
    valBitor (csrFromBuffer [(0, 1)]) CSR.new = csrFromBuffer [(0, 1)] ∧
    bitorAssign CSR.new (csrFromBuffer [(0, 1)]) = csrFromBuffer [(0, 1)] ∧
    bitorAssign (csrFromBuffer [(0, 1)]) CSR.new = csrFromBuffer [(0, 1)] :=
  c10_empty_csr_unit (csrFromBuffer [(0, 1)]) (by decide)

/-! ## Canonical CSRs and union idempotence -/

/-- A CSR is canonical for the neighbour map A on n vertices when its
offsets are the exclusive sums of the per-vertex encoded-segment
lengths, its blob is the concatenation of those segments, and every
neighbour list is strictly sorted with u32 entries.  Every CSR the
builder emits has this shape. -/
def CanonicalWith (g : CSR) (n : Nat) (A : Nat → List Nat) : Prop :=
  g.vertices = exclusiveSum 0 ((List.range n).map (fun u => (encode u (A u)).length)) ∧
  g.edges = ((List.range n).map (fun u => encode u (A u))).flatten ∧
  ∀ u, u < n → List.Chain' (· < ·) (A u) ∧ ∀ v ∈ A u, v < 4294967296

theorem unionMF_self : ∀ (l : List Nat) (f : Nat),
    l.length + l.length ≤ f → unionMF f l l = l := by
  intro l
  induction l with
  | nil =>
    intro f _
    cases f with
    | zero => rfl
    | succ f => rfl
  | cons x t ih =>
    intro f hf
    simp only [List.length_cons] at hf
    cases f with
    | zero => omega
    | succ f =>
      rw [unionMF, if_neg (lt_irrefl x), if_pos rfl, ih f (by omega)]

theorem unionM_self (l : List Nat) : unionM l l = l :=
  unionMF_self l (l.length + l.length) le_rfl

theorem encode_cons_ne_nil (s v : Nat) (vs : List Nat) : encode s (v :: vs) ≠ [] := by
  rw [encode]
  unfold firstEdgeBytes
  simp

theorem take_map_range {β : Type} (n k : Nat) (f : Nat → β) (h : k ≤ n) :
    ((List.range n).map f).take k = (List.range k).map f := by
  rw [← List.map_take, List.take_range, Nat.min_eq_left h]

theorem exclusiveSum_eq_range_map (init : Nat) :
    ∀ l : List Nat, exclusiveSum init l =
      (List.range (l.length + 1)).map (fun k => init + (l.take k).sum) := by
  intro l
  induction l generalizing init with
  | nil => simp [exclusiveSum]
  | cons x xs ih =>
    have hR : (List.range ((x :: xs).length + 1)).map
        (fun k => init + ((x :: xs).take k).sum) =
        init :: (List.range (xs.length + 1)).map
          (fun k => (init + x) + (xs.take k).sum) := by
      rw [List.length_cons, List.range_succ_eq_map, List.map_cons, List.map_map]
      have hfe : ((fun k => init + ((x :: xs).take k).sum) ∘ Nat.succ) =
          fun k => (init + x) + (xs.take k).sum := by
        funext k
        simp only [Function.comp_apply, List.take_succ_cons, List.sum_cons]
        omega
      rw [hfe]
      simp
    rw [hR, exclusiveSum, ih (init + x)]

/-- The raw byte slice of a canonical CSR at a vertex below n is its
encoded segment when the neighbour list is nonempty, and None (via the
empty-slice check) when it is empty. -/
theorem canonical_rawAdj (g : CSR) (n : Nat) (A : Nat → List Nat)
    (hC : CanonicalWith g n A) (u : Nat) (hu : u < n) :
    g.rawAdj u = if A u = [] then none else some (encode u (A u)) := by
  obtain ⟨hv, he, _⟩ := hC
  set lens := (List.range n).map (fun x => (encode x (A x)).length) with hlens
  set segs := (List.range n).map (fun x => encode x (A x)) with hsegs
  have hnn : lens = segs.map List.length := by
    rw [hlens, hsegs, List.map_map]
    rfl
  have h1 : g.vertices[u]? = some ((lens.take u).sum) := by
    rw [hv, exclusiveSum_getElem 0 _ u (by rw [hlens]; simp; omega), Nat.zero_add]
  have h2 : g.vertices[u + 1]? = some ((lens.take (u + 1)).sum) := by
    rw [hv, exclusiveSum_getElem 0 _ (u + 1) (by rw [hlens]; simp; omega), Nat.zero_add]
  have hsucc : (lens.take (u + 1)).sum = (lens.take u).sum + (encode u (A u)).length := by
    rw [sum_take_succ_getD lens u (by rw [hlens]; simp; omega)]
    congr 1
    rw [hlens]
    exact map_range_getD n u _ 0 hu
  have hget : segs.getD u [] = encode u (A u) := by
    rw [hsegs]
    exact map_range_getD n u _ [] hu
  have hslice : (g.edges.drop ((lens.take u).sum)).take ((encode u (A u)).length) =
      encode u (A u) := by
    rw [he, hnn, ← hget]
    exact flatten_slice segs u (by rw [hsegs]; simp; omega)
  unfold CSR.rawAdj
  rw [h1, h2]
  have hdiff : (lens.take (u + 1)).sum - (lens.take u).sum =
      (encode u (A u)).length := by omega
  show (if 0 < ((g.edges.drop ((lens.take u).sum)).take
      ((lens.take (u + 1)).sum - (lens.take u).sum)).length then
      some ((g.edges.drop ((lens.take u).sum)).take
        ((lens.take (u + 1)).sum - (lens.take u).sum)) else none) = _
  rw [hdiff, hslice]
  by_cases hA : A u = []
  · rw [if_pos hA]
    have henil : encode u (A u) = [] := by rw [hA]; rfl
    rw [henil]
    simp
  · rw [if_neg hA]
    have hne : encode u (A u) ≠ [] := by
      cases hAu : A u with
      | nil => exact absurd hAu hA
      | cons v vs => exact encode_cons_ne_nil u v vs
    rw [if_pos (List.length_pos.mpr hne)]

theorem flatten_prefix_length (A : Nat → List Nat) (n k : Nat) (hk : k ≤ n) :
    ((List.range k).map (fun u => encode u (A u))).flatten.length =
      (((List.range n).map (fun x => (encode x (A x)).length)).take k).sum := by
  rw [List.length_flatten, List.map_map, take_map_range n k _ hk]
  rfl

/-- Loop invariant of the self-union of a canonical CSR: after k
iterations the accumulated offsets, count and blob are exactly the
prefix sums, neighbour-count sum and segment concatenation of the first
k vertices. -/
theorem refBitor_self_inv (g : CSR) (n : Nat) (A : Nat → List Nat)
    (hC : CanonicalWith g n A) :
    ∀ k, k ≤ n → (List.range k).foldl (bitorStep g g) ([], 0, []) =
      ((List.range k).map (fun u =>
        (((List.range n).map (fun x => (encode x (A x)).length)).take u).sum),
       ((List.range k).map (fun u => (A u).length)).sum,
       ((List.range k).map (fun u => encode u (A u))).flatten) := by
  intro k
  induction k with
  | zero => intro _; rfl
  | succ k ih =>
    intro hk
    rw [List.range_succ, List.foldl_append, ih (by omega)]
    simp only [List.foldl_cons, List.foldl_nil]
    have hraw := canonical_rawAdj g n A hC k (by omega)
    have hes := flatten_prefix_length A n k (by omega)
    by_cases hA : A k = []
    · rw [if_pos hA] at hraw
      unfold bitorStep
      rw [hraw]
      simp only [Prod.mk.injEq]
      refine ⟨?_, ?_, ?_⟩
      · rw [List.map_append, hes]
        simp
      · rw [List.map_append, List.sum_append]
        simp [hA]
      · rw [List.map_append, List.flatten_append]
        have henc : encode k (A k) = [] := by rw [hA]; rfl
        simp [henc]
    · rw [if_neg hA] at hraw
      unfold bitorStep
      rw [hraw]
      have hdec : decode k (encode k (A k)) = some (A k) := by
        obtain ⟨_, _, hAc⟩ := hC
        exact decode_encode k (A k)
          ((hAc k (by omega)).1.imp (fun _ _ hab => le_of_lt hab))
          (hAc k (by omega)).2
      simp only [hdec, Option.getD_some, unionM_self]
      simp only [Prod.mk.injEq]
      refine ⟨?_, ?_, ?_⟩
      · rw [List.map_append, hes]
        simp
      · rw [List.map_append, List.sum_append]
        simp
      · rw [List.map_append, List.flatten_append]
        simp

/-- Claim C5 (amended): for every canonical CSR whose num_edges equals
the total neighbour count - as holds for every CSR the builder emits -
the reference union of the CSR with itself is structurally identical to
it: same offsets, same blob, same num_edges. -/
theorem c5_union_idempotent (g : CSR) (n : Nat) (A : Nat → List Nat)
    (hC : CanonicalWith g n A)
    (hNE : g.num_edges = ((List.range n).map (fun u => (A u).length)).sum) :
    refBitor g g = g := by
  have hC2 := hC
  obtain ⟨hv, he, hA⟩ := hC2
  have hlenv : g.vertices.length = n + 1 := by
    rw [hv, exclusiveSum_length]
    simp
  have hmax : max g.vertices.length g.vertices.length - 1 = n := by
    rw [Nat.max_self]
    omega
  unfold refBitor
  rw [hmax, refBitor_self_inv g n A hC n le_rfl]
  have hlast : ((List.range n).map (fun u => encode u (A u))).flatten.length =
      (((List.range n).map (fun x => (encode x (A x)).length)).take n).sum :=
    flatten_prefix_length A n n le_rfl
  cases g with
  | mk gv gne ge =>
    have hv' : gv = exclusiveSum 0
        ((List.range n).map (fun u => (encode u (A u)).length)) := hv
    have he' : ge = ((List.range n).map (fun u => encode u (A u))).flatten := he
    have hNE' : gne = ((List.range n).map (fun u => (A u).length)).sum := hNE
    simp only [CSR.mk.injEq]
    refine ⟨?_, hNE'.symm, he'.symm⟩
    rw [hv', exclusiveSum_eq_range_map]
    have hlenmap : ((List.range n).map (fun u => (encode u (A u)).length)).length = n := by
      simp
    rw [hlenmap, List.range_succ, List.map_append]
    congr 1
    · apply List.map_congr_left
      intro k _
      rw [Nat.zero_add]
    · simp only [List.map_cons, List.map_nil]
      rw [hlast, Nat.zero_add]

/-- Counterexample for C5 as stated: the CSR reached by taking the
reference union of the builders of [(0,1)] and [(1,2)] is not a fixed
point of self-union, because its num_edges was undercounted by the
union (see C2) and the self-union recounts the two edges. -/
theorem c5_union_idempotent_counterexample :
    refBitor (refBitor (csrFromBuffer [(0, 1)]) (csrFromBuffer [(1, 2)]))
        (refBitor (csrFromBuffer [(0, 1)]) (csrFromBuffer [(1, 2)])) ≠
      refBitor (csrFromBuffer [(0, 1)]) (csrFromBuffer [(1, 2)]) := by
  decide

/-- Witness for the amended C5 at the CSR built from [(0,1),(1,0)]. -/
theorem c5_union_idempotent_witness :
    refBitor (csrFromBuffer [(0, 1), (1, 0)]) (csrFromBuffer [(0, 1), (1, 0)]) =
      csrFromBuffer [(0, 1), (1, 0)] := by
  apply c5_union_idempotent (csrFromBuffer [(0, 1), (1, 0)]) 2
    (fun u => if u = 0 then [1] else if u = 1 then [0] else [])
  · refine ⟨by decide, by decide, ?_⟩
    intro u hu
    interval_cases u
    · exact ⟨by simp, by decide⟩
    · exact ⟨by simp, by decide⟩
  · decide

/-! ## GraphSAGE sampler re-indexing (src/graph_sage_sampler.rs) -/

/-- Finite-map update, modelling HashMap insert with overwrite. -/
def mapUpd (m : Nat → Option Nat) (k v : Nat) : Nat → Option Nat :=
  fun x => if x = k then some v else m x

/-- GraphSageSampler::reindex: phase 1 numbers the inputs 0, 1, ... in
order (pushing them onto the frontier), phase 2 assigns the next ids to
sampled outputs not seen before (first-seen order), phase 3 walks the
inputs again and emits, per input and per sampled edge, the local id of
the input into row_idx and the local id of the corresponding output into
col_idx.  As in the source, output_counts is indexed by the input
VERTEX ID (not its position); the getD defaults model the index and
HashMap panics of the source, unreachable for the in-range arguments
the claims use.  Returns (frontier, row_idx, col_idx). -/
def reindex (inputs outputs outputCounts : List Nat) :
    List Nat × List Nat × List Nat :=
  let p1 := inputs.foldl
    (fun (acc : (Nat → Option Nat) × Nat × List Nat) input =>
      (mapUpd acc.1 input acc.2.1, acc.2.1 + 1, acc.2.2 ++ [input]))
    (fun _ => none, 0, [])
  let p2 := outputs.foldl
    (fun (acc : (Nat → Option Nat) × Nat × List Nat) output =>
      if (acc.1 output).isSome then acc
      else (mapUpd acc.1 output acc.2.1, acc.2.1 + 1, acc.2.2 ++ [output]))
    p1
  let p3 := inputs.foldl
    (fun (acc : List Nat × List Nat × Nat) input =>
      (List.range (outputCounts.getD input 0)).foldl
        (fun (acc2 : List Nat × List Nat × Nat) _ =>
          (acc2.1 ++ [(p2.1 input).getD 0],
           acc2.2.1 ++ [(p2.1 (outputs.getD acc2.2.2 0)).getD 0],
           acc2.2.2 + 1))
        acc)
    ([], [], 0)
  (p2.2.2, p3.1, p3.2.1)

/-- GraphSageSampler::sample, with the per-layer reservoir-sampling
kernel abstracted as an oracle (the source kernel draws from a
thread-local RNG; an oracle value (outs, counts) is admissible when it
is a possible kernel result).  Per layer the source binds
(frontier, src, dst) to the reindex result, so the Adj src field holds
row_idx (the per-edge INPUT local ids) and dst holds col_idx (the
per-edge sampled-output local ids); layers are reversed at the end.
Adj { src, dst, size } is modelled as the tuple (src, dst, size).
Returns (nodes, batch_size, adjs). -/
def sampleWithKernel (kernel : List Nat → Nat → List Nat × List Nat)
    (sizes : List Nat) (inputNodes : List Nat) :
    List Nat × Nat × List (List Nat × List Nat × (Nat × Nat)) :=
  let batch := inputNodes.length
  let r := sizes.foldl
    (fun (acc : List Nat × List (List Nat × List Nat × (Nat × Nat))) k =>
      let out := kernel acc.1 k
      let ri := reindex acc.1 out.1 out.2
      (ri.1, acc.2 ++ [(ri.2.1, ri.2.2, (ri.1.length, acc.1.length))]))
    (inputNodes, [])
  (r.1, batch, r.2.reverse)

/-- Counterexample for C6 as stated: sampling seeds [0] with one layer
of fan-out 2 on the graph {(0,1),(0,2),(0,3)}, with the admissible
kernel outcome ([1,2], counts [2]), produces a layer whose dst holds the
sampled-output local ids [1,2]; no layer has dst = [0,0], which the
claim asserts - the code emits the input local ids in src, not dst. -/
theorem c6_layer_orientation_counterexample :
    (csrFromBuffer [(0, 1), (0, 2), (0, 3)]).adj 0 = [1, 2, 3] ∧
    (sampleWithKernel (fun _ _ => ([1, 2], [2])) [2] [0]).2.2 =
      [([0, 0], [1, 2], (3, 1))] ∧
    ∀ layer ∈ (sampleWithKernel (fun _ _ => ([1, 2], [2])) [2] [0]).2.2,
      layer.2.1 ≠ ([0, 0] : List Nat) := by
  decide

/-- Claim C6 (amended): in the sampled layer each edge is emitted as
src_local = local id of the input vertex and dst_local = local id of the
sampled output; concretely, sampling seeds [0], sizes [2] on the graph
{(0,1),(0,2),(0,3)} with any admissible kernel outcome (two distinct
neighbours of 0) yields batch_size 1, final nodes [0, a, b], and one
layer with src = [0,0], dst = [1,2] (the output local ids) and
size = (3, 1). -/
theorem c6_layer_bipartite_pairs (out : List Nat) (hlen : out.length = 2)
    (hmem : ∀ v ∈ out, v ∈ (csrFromBuffer [(0, 1), (0, 2), (0, 3)]).adj 0)
    (hnd : out.Nodup) :
    sampleWithKernel (fun _ _ => (out, [2])) [2] [0] =
      (0 :: out, 1, [([0, 0], [1, 2], (3, 1))]) := by
  have hadj : (csrFromBuffer [(0, 1), (0, 2), (0, 3)]).adj 0 = [1, 2, 3] := by decide
  rw [hadj] at hmem
  match out, hlen, hmem, hnd with
  | [a, b], _, hmem, hnd =>
    have ha : a ∈ [1, 2, 3] := hmem a (by simp)
    have hb : b ∈ [1, 2, 3] := hmem b (by simp)
    have hab : a ≠ b := by
      rw [List.nodup_cons] at hnd
      intro h
      exact hnd.1 (by simp [h])
    fin_cases ha <;> fin_cases hb <;>
      first
        | exact absurd rfl hab
        | decide

/-- Witness for the amended C6 at the kernel outcome [2, 3]. -/
theorem c6_layer_bipartite_pairs_witness :
    sampleWithKernel (fun _ _ => ([2, 3], [2])) [2] [0] =
      (0 :: [2, 3], 1, [([0, 0], [1, 2], (3, 1))]) :=
  c6_layer_bipartite_pairs [2, 3] (by decide) (by decide) (by decide)
